import Mathlib

/-!
Shallow embedding of the separate-chaining hash map from
`src/hashmap.rs` and `src/hashmap/options.rs`, together with proofs of the
specification's claims about it.

Modelling conventions:
* Rust `Vec<T>` becomes `List T`; `Vec<Vec<Entry<K,V>>>` becomes
  `List (List (Entry K V))`.
* The `DefaultHasher` digest is abstracted as a function `hash : K → Nat`
  (the digest value of `hash(value) -> u64`); every theorem is quantified
  over an arbitrary such function, so keys with colliding digests are
  covered.  The digest never escapes `find_key_index`, where it is reduced
  modulo the capacity, so no explicit 64-bit truncation is needed.
* The `f64` load factor is modelled as a rational number `ℚ`; the values
  the code manipulates (defaults and threshold comparisons such as 0.75)
  are exact in both representations.
* Rust methods that mutate `&mut self` and return a value become Lean
  functions returning a pair `(returned value, new map)`.
-/

set_option linter.unusedSectionVars false

namespace RustHashMap

/-- Entry struct of `src/hashmap.rs`: a `(key, value)` pair in the map. -/
structure Entry (K V : Type) where
  key : K
  value : V
  deriving DecidableEq, Repr

/-- Constant `DEFAULT_CAPACITY` of `src/hashmap/options.rs`. -/
def DEFAULT_CAPACITY : Nat := 16

/-- Constant `DEFAULT_LOAD_FACTOR` of `src/hashmap/options.rs` (0.75). -/
def DEFAULT_LOAD_FACTOR : ℚ := 3 / 4

/-- Constant `DEFAULT_DYNAMIC_RESIZING` of `src/hashmap/options.rs`. -/
def DEFAULT_DYNAMIC_RESIZING : Bool := true

/-- Unvalidated options struct of `src/hashmap/options.rs`: all knobs optional. -/
structure Options where
  initial_capacity : Option Nat
  load_factor : Option ℚ
  dynamic_resizing : Option Bool
  deriving DecidableEq, Repr

/-- Rust `#[derive(Default)]` for `Options`: every field `None`. -/
def Options.default : Options :=
  { initial_capacity := none, load_factor := none, dynamic_resizing := none }

/-- ValidatedOptions struct of `src/hashmap/options.rs`: all knobs resolved. -/
structure ValidatedOptions where
  initial_capacity : Nat
  load_factor : ℚ
  dynamic_resizing : Bool
  deriving DecidableEq, Repr

/-- Method `Options::validate`: accumulate validation errors (currently only
the positivity check on `load_factor`), then either resolve the defaults or
return the error list. -/
def Options.validate (o : Options) : Except (List String) ValidatedOptions :=
  let errors : List String :=
    match o.load_factor with
    | some lf => if lf ≤ 0 then ["Load factor cannot be zero or less"] else []
    | none => []
  if errors.isEmpty then
    Except.ok
      { initial_capacity := o.initial_capacity.getD DEFAULT_CAPACITY,
        load_factor := o.load_factor.getD DEFAULT_LOAD_FACTOR,
        dynamic_resizing := o.dynamic_resizing.getD DEFAULT_DYNAMIC_RESIZING }
  else
    Except.error errors

/-- HashMap struct of `src/hashmap.rs`: bucket array, size counter, options. -/
structure HashMap (K V : Type) where
  items : List (List (Entry K V))
  size : Nat
  options : ValidatedOptions
  deriving DecidableEq, Repr

variable {K V : Type} [DecidableEq K]

variable (hash : K → Nat)

/-- Function `find_key_index` of `src/hashmap.rs`: the bucket index is the
hash digest reduced modulo the capacity. -/
def find_key_index (key : K) (capacity : Nat) : Nat :=
  hash key % capacity

/-- Method `HashMap::create_backing_vec`: `capacity` many empty buckets. -/
def create_backing_vec (capacity : Nat) : List (List (Entry K V)) :=
  List.replicate capacity []

/-- Method `HashMap::with_options`: fresh map over the validated options. -/
def with_options (options : ValidatedOptions) : HashMap K V :=
  { items := create_backing_vec options.initial_capacity,
    size := 0,
    options := options }

/-- Result of validating `Options::default()`; used by `HashMap::new`. -/
def defaultValidated : ValidatedOptions :=
  { initial_capacity := DEFAULT_CAPACITY,
    load_factor := DEFAULT_LOAD_FACTOR,
    dynamic_resizing := DEFAULT_DYNAMIC_RESIZING }

/-- Method `HashMap::new`: map with the default (validated) options. -/
def new : HashMap K V :=
  with_options defaultValidated

/-- Method `HashMap::capacity`: length of the bucket array. -/
def HashMap.capacity (m : HashMap K V) : Nat :=
  m.items.length

/-- Method `HashMap::get`: scan the bucket at the key's index for the first
entry with a matching key and return its value. -/
def HashMap.get (m : HashMap K V) (key : K) : Option V :=
  let index := find_key_index hash key m.capacity
  let containing_list := m.items.getD index []
  (containing_list.find? (fun e => e.key == key)).map (fun e => e.value)

/-- Method `HashMap::exceeds_threshold`:
`size as f64 >= capacity as f64 * load_factor`, over exact rationals. -/
def HashMap.exceeds_threshold (m : HashMap K V) : Bool :=
  decide ((m.capacity : ℚ) * m.options.load_factor ≤ (m.size : ℚ))

/-- Loop body of `HashMap::resize`: push one entry into the bucket at its
index recomputed against the new bucket array's length. -/
def resizeStep (new_vec : List (List (Entry K V))) (entry : Entry K V) :
    List (List (Entry K V)) :=
  let index := find_key_index hash entry.key new_vec.length
  new_vec.set index (new_vec.getD index [] ++ [entry])

/-- Method `HashMap::resize`: allocate a fresh bucket array of the given
capacity and redistribute every entry into it. -/
def HashMap.resize (m : HashMap K V) (capacity : Nat) : HashMap K V :=
  { m with items := m.items.flatten.foldl (resizeStep hash) (create_backing_vec capacity) }

/-- In-bucket part of `HashMap::put`: find the first entry whose key matches
and replace its value in place (`mem::replace`), returning the previous value
and the updated bucket; `none` when no entry matches. -/
def replaceFirst (key : K) (value : V) : List (Entry K V) → Option (V × List (Entry K V))
  | [] => none
  | e :: rest =>
    if e.key == key then
      some (e.value, { e with value := value } :: rest)
    else
      (replaceFirst key value rest).map (fun p => (p.1, e :: p.2))

/-- Trailing threshold check of `HashMap::put` (lines 94-96): double the
capacity when dynamic resizing is on and the load factor is reached. -/
def HashMap.resizeIfNeeded (m : HashMap K V) : HashMap K V :=
  if m.options.dynamic_resizing && m.exceeds_threshold then
    m.resize hash (m.capacity * 2)
  else
    m

/-- Mutation phase of `HashMap::put` (lines 78-92): overwrite the value of an
existing entry for the key (returning the previous value) or append a fresh
entry to the key's bucket and bump `size`. -/
def HashMap.putMutated (m : HashMap K V) (key : K) (value : V) : Option V × HashMap K V :=
  let index := find_key_index hash key m.capacity
  let containing_list := m.items.getD index []
  match replaceFirst key value containing_list with
  | some (old, new_list) =>
    (some old, { m with items := m.items.set index new_list })
  | none =>
    (none,
      { m with
        items := m.items.set index (containing_list ++ [Entry.mk key value]),
        size := m.size + 1 })

/-- Method `HashMap::put`: the mutation phase followed by the
automatic-resize check. -/
def HashMap.put (m : HashMap K V) (key : K) (value : V) : Option V × HashMap K V :=
  ((m.putMutated hash key value).1, (m.putMutated hash key value).2.resizeIfNeeded hash)

/-- Rust `Vec::swap_remove` on a bucket: overwrite position `i` with the last
element, then drop the last element.  Matches the source for `i < l.length`. -/
def swapRemove (l : List α) (i : Nat) : List α :=
  match l.getLast? with
  | none => []
  | some last => (l.set i last).dropLast

/-- Method `HashMap::pop`: find the position of the matching entry in the
key's bucket; when present, decrement `size` and `swap_remove` it, returning
its value. -/
def HashMap.pop (m : HashMap K V) (key : K) : Option V × HashMap K V :=
  let index := find_key_index hash key m.capacity
  let containing_list := m.items.getD index []
  match containing_list.findIdx? (fun e => e.key == key) with
  | none => (none, m)
  | some position =>
    ((containing_list[position]?).map (fun e => e.value),
     { m with
       items := m.items.set index (swapRemove containing_list position),
       size := m.size - 1 })

/-- Consuming iterator of `src/hashmap/into_iter.rs`: the sequence it yields
is the concatenation of the buckets in order. -/
def HashMap.intoIter (m : HashMap K V) : List (Entry K V) :=
  m.items.flatten

/-- All entries currently stored in the map, in bucket-then-intra-bucket
order. -/
def HashMap.entries (m : HashMap K V) : List (Entry K V) :=
  m.items.flatten

/-- Placement invariant: every entry sits in the bucket its key hashes to
(re-derived against the current capacity). -/
def bucketsIndexed (items : List (List (Entry K V))) : Prop :=
  ∀ i, i < items.length → ∀ e ∈ items.getD i [], find_key_index hash e.key items.length = i

/-- Uniqueness invariant: a given key appears at most once across all
buckets. -/
def keysNodup (items : List (List (Entry K V))) : Prop :=
  (items.flatten.map Entry.key).Nodup

/-- Well-formedness of a map state: the `size` counter matches the number of
stored entries, every entry is in the bucket its key indexes to, keys are
unique, and the bucket array is non-empty. -/
def HashMap.Invariant (m : HashMap K V) : Prop :=
  m.size = m.entries.length ∧ bucketsIndexed hash m.items ∧ keysNodup m.items ∧ 0 < m.capacity

/-- Map states reachable from construction by put/pop/resize, where explicit
resizes use a positive capacity (a zero capacity is a contract violation:
the Rust code would hit a modulo-by-zero panic on the next operation). -/
inductive Reachable : HashMap K V → Prop where
  | init (opts : ValidatedOptions) (h : 0 < opts.initial_capacity) :
      Reachable (with_options opts)
  | put (m : HashMap K V) (k : K) (v : V) : Reachable m → Reachable (m.put hash k v).2
  | pop (m : HashMap K V) (k : K) : Reachable m → Reachable (m.pop hash k).2
  | resize (m : HashMap K V) (n : Nat) (hn : 0 < n) : Reachable m → Reachable (m.resize hash n)

/-- Sequence of put operations, used to state capacity stability when
dynamic resizing is disabled. -/
def putAll (m : HashMap K V) (l : List (K × V)) : HashMap K V :=
  l.foldl (fun acc kv => (acc.put hash kv.1 kv.2).2) m

/-! ### Generic list lemmas -/

theorem getD_set_self {α : Type _} (l : List α) {i : Nat} (hi : i < l.length) (a d : α) :
    (l.set i a).getD i d = a := by
  rw [List.getD_eq_getElem _ _ (by simpa using hi), List.getElem_set]
  simp

theorem getD_set_ne {α : Type _} (l : List α) {i j : Nat} (h : i ≠ j) (a d : α) :
    (l.set i a).getD j d = l.getD j d := by
  by_cases hj : j < l.length
  · rw [List.getD_eq_getElem _ _ (by simpa using hj), List.getD_eq_getElem _ _ hj,
      List.getElem_set, if_neg h]
  · rw [List.getD_eq_default _ _ (by simpa using Nat.le_of_not_lt hj),
      List.getD_eq_default _ _ (Nat.le_of_not_lt hj)]

theorem mem_getD_flatten {α : Type _} {items : List (List α)} {i : Nat}
    (hi : i < items.length) {e : α} (he : e ∈ items.getD i []) : e ∈ items.flatten := by
  rw [List.getD_eq_getElem _ _ hi] at he
  exact List.mem_flatten.mpr ⟨items[i], List.getElem_mem hi, he⟩

theorem flatten_set_perm {α : Type _} (items : List (List α)) {i : Nat}
    (hi : i < items.length) (b : List α) :
    ((items.set i (items.getD i [] ++ b)).flatten).Perm (items.flatten ++ b) := by
  induction items generalizing i with
  | nil => simp at hi
  | cons hd tl ih =>
    cases i with
    | zero =>
      simp only [List.set_cons_zero, List.getD_cons_zero, List.flatten_cons, List.append_assoc]
      exact List.Perm.append_left hd List.perm_append_comm
    | succ j =>
      simp only [List.set_cons_succ, List.getD_cons_succ, List.flatten_cons, List.append_assoc]
      exact List.Perm.append_left hd (ih (Nat.lt_of_succ_lt_succ hi))

theorem set_append_cons {α : Type _} (C : List α) (y : α) (D : List α) (a : α) :
    (C ++ y :: D).set C.length a = C ++ a :: D := by
  induction C with
  | nil => rfl
  | cons c C ih => simp only [List.cons_append, List.length_cons, List.set_cons_succ, ih]

theorem find?_eq_findIdx?_bind {α : Type _} (p : α → Bool) (l : List α) :
    l.find? p = (l.findIdx? p).bind (fun i => l[i]?) := by
  induction l with
  | nil => rfl
  | cons x xs ih =>
    by_cases hx : p x = true
    · simp [List.find?_cons, hx, List.findIdx?_cons]
    · simp only [List.find?_cons, List.findIdx?_cons, hx, if_false, List.findIdx?_succ]
      rw [ih]
      cases xs.findIdx? p <;> simp

theorem swapRemove_perm {α : Type _} (l : List α) {p : Nat} (hp : p < l.length) :
    l.Perm (l[p] :: swapRemove l p) := by
  obtain ⟨C, x, D, hl, hC, hx⟩ : ∃ C x D, l = C ++ x :: D ∧ C.length = p ∧ l[p] = x := by
    refine ⟨l.take p, l[p], l.drop (p + 1), ?_, ?_, rfl⟩
    · rw [List.getElem_cons_drop, List.take_append_drop]
    · simp [Nat.min_eq_left (Nat.le_of_lt hp)]
  rw [hx]
  subst hl
  subst hC
  rcases List.eq_nil_or_concat D with rfl | ⟨D₁, last, rfl⟩
  · have hlast : (C ++ x :: ([] : List α)).getLast? = some x := by
      rw [show C ++ x :: ([] : List α) = C ++ [x] from rfl]
      exact List.getLast?_concat _
    rw [swapRemove, hlast]
    simp only [set_append_cons]
    rw [show C ++ x :: ([] : List α) = C ++ [x] from rfl, List.dropLast_concat]
    exact List.perm_append_comm
  · simp only [List.concat_eq_append]
    have hlast : (C ++ x :: (D₁ ++ [last])).getLast? = some last := by
      rw [show C ++ x :: (D₁ ++ [last]) = (C ++ x :: D₁) ++ [last] by simp]
      exact List.getLast?_concat _
    rw [swapRemove, hlast]
    simp only [set_append_cons]
    rw [show C ++ last :: (D₁ ++ [last]) = (C ++ last :: D₁) ++ [last] by simp,
      List.dropLast_concat]
    refine List.Perm.trans List.perm_middle ?_
    exact List.Perm.cons x (List.Perm.append_left C List.perm_append_comm)

omit [DecidableEq K] in
theorem entry_unique {l : List (Entry K V)} (h : (l.map Entry.key).Nodup)
    {e₁ e₂ : Entry K V} (h₁ : e₁ ∈ l) (h₂ : e₂ ∈ l) (hk : e₁.key = e₂.key) : e₁ = e₂ :=
  List.inj_on_of_nodup_map h h₁ h₂ hk

/-! ### Basic facts about indexing, construction and resize -/

theorem find_key_index_lt (key : K) {capacity : Nat} (h : 0 < capacity) :
    find_key_index hash key capacity < capacity :=
  Nat.mod_lt _ h

theorem getD_replicate_nil {α : Type _} (n i : Nat) :
    ((List.replicate n ([] : List α)).getD i []) = [] := by
  by_cases hi : i < n
  · rw [List.getD_eq_getElem _ _ (by simpa using hi)]
    simp
  · exact List.getD_eq_default _ _ (by simpa using Nat.le_of_not_lt hi)

theorem capacity_with_options (opts : ValidatedOptions) :
    (with_options (K := K) (V := V) opts).capacity = opts.initial_capacity := by
  simp [with_options, HashMap.capacity, create_backing_vec]

theorem with_options_invariant (opts : ValidatedOptions) (h : 0 < opts.initial_capacity) :
    (with_options (K := K) (V := V) opts).Invariant hash := by
  refine ⟨?_, ?_, ?_, ?_⟩
  · simp [with_options, HashMap.entries, create_backing_vec, List.flatten_replicate_nil]
  · intro i hi e he
    rw [show (with_options (K := K) (V := V) opts).items = List.replicate opts.initial_capacity []
      from rfl, getD_replicate_nil] at he
    exact absurd he (List.not_mem_nil e)
  · simp [with_options, keysNodup, create_backing_vec, List.flatten_replicate_nil]
  · simpa [capacity_with_options] using h

theorem resizeStep_length (acc : List (List (Entry K V))) (e : Entry K V) :
    (resizeStep hash acc e).length = acc.length :=
  List.length_set ..

theorem foldl_resizeStep_length (l : List (Entry K V)) (acc : List (List (Entry K V))) :
    (l.foldl (resizeStep hash) acc).length = acc.length := by
  induction l generalizing acc with
  | nil => rfl
  | cons e t ih => rw [List.foldl_cons, ih, resizeStep_length]

theorem resize_capacity (m : HashMap K V) (n : Nat) : (m.resize hash n).capacity = n := by
  simp [HashMap.resize, HashMap.capacity, foldl_resizeStep_length, create_backing_vec]

theorem resize_size (m : HashMap K V) (n : Nat) : (m.resize hash n).size = m.size := rfl

theorem resize_options (m : HashMap K V) (n : Nat) : (m.resize hash n).options = m.options := rfl

theorem foldl_resizeStep_flatten_perm (l : List (Entry K V)) (acc : List (List (Entry K V)))
    (h : 0 < acc.length) :
    ((l.foldl (resizeStep hash) acc).flatten).Perm (acc.flatten ++ l) := by
  induction l generalizing acc with
  | nil => simp
  | cons e t ih =>
    rw [List.foldl_cons]
    refine List.Perm.trans (ih _ (by rw [resizeStep_length]; exact h)) ?_
    have hstep : ((resizeStep hash acc e).flatten).Perm (acc.flatten ++ [e]) :=
      flatten_set_perm acc (find_key_index_lt hash e.key h) [e]
    refine List.Perm.trans (List.Perm.append_right t hstep) ?_
    simp

theorem resize_entries_perm (m : HashMap K V) {n : Nat} (h : 0 < n) :
    ((m.resize hash n).entries).Perm m.entries := by
  have hp := foldl_resizeStep_flatten_perm hash m.items.flatten (create_backing_vec n)
    (by simpa [create_backing_vec] using h)
  simpa [HashMap.resize, HashMap.entries, create_backing_vec,
    List.flatten_replicate_nil] using hp

theorem resizeStep_bucketsIndexed {acc : List (List (Entry K V))} (e : Entry K V)
    (hacc : bucketsIndexed hash acc) : bucketsIndexed hash (resizeStep hash acc e) := by
  intro i hi e' he'
  rw [resizeStep_length] at hi
  rw [show (resizeStep hash acc e).length = acc.length from resizeStep_length ..]
  by_cases hcase : find_key_index hash e.key acc.length = i
  · rw [show resizeStep hash acc e =
        acc.set (find_key_index hash e.key acc.length)
          (acc.getD (find_key_index hash e.key acc.length) [] ++ [e]) from rfl,
      hcase, getD_set_self _ hi] at he'
    rcases List.mem_append.mp he' with hmem | hmem
    · exact hacc i hi e' hmem
    · rw [List.mem_singleton.mp hmem, ← hcase]
  · rw [show resizeStep hash acc e =
        acc.set (find_key_index hash e.key acc.length)
          (acc.getD (find_key_index hash e.key acc.length) [] ++ [e]) from rfl,
      getD_set_ne _ hcase] at he'
    exact hacc i hi e' he'

theorem foldl_resizeStep_bucketsIndexed (l : List (Entry K V))
    {acc : List (List (Entry K V))} (hacc : bucketsIndexed hash acc) :
    bucketsIndexed hash (l.foldl (resizeStep hash) acc) := by
  induction l generalizing acc with
  | nil => exact hacc
  | cons e t ih => exact ih (resizeStep_bucketsIndexed hash e hacc)

theorem bucketsIndexed_create (n : Nat) :
    bucketsIndexed hash (create_backing_vec (K := K) (V := V) n) := by
  intro i hi e he
  rw [create_backing_vec, getD_replicate_nil] at he
  exact absurd he (List.not_mem_nil e)

theorem resize_bucketsIndexed (m : HashMap K V) (n : Nat) :
    bucketsIndexed hash (m.resize hash n).items :=
  foldl_resizeStep_bucketsIndexed hash _ (bucketsIndexed_create hash n)

theorem resize_keysNodup {m : HashMap K V} (hk : keysNodup m.items) {n : Nat} (h : 0 < n) :
    keysNodup (m.resize hash n).items :=
  (List.Perm.nodup_iff (List.Perm.map Entry.key (resize_entries_perm hash m h))).mpr hk

theorem resize_invariant {m : HashMap K V} (hm : m.Invariant hash) {n : Nat} (h : 0 < n) :
    ((m.resize hash n).Invariant hash) := by
  obtain ⟨hsize, hidx, hnodup, hcap⟩ := hm
  refine ⟨?_, resize_bucketsIndexed hash m n, resize_keysNodup hash hnodup h, ?_⟩
  · rw [resize_size, hsize, (resize_entries_perm hash m h).length_eq]
  · rw [resize_capacity]; exact h

/-! ### Characterization of replaceFirst and get -/

theorem replaceFirst_none_iff (key : K) (value : V) (l : List (Entry K V)) :
    replaceFirst key value l = none ↔ ∀ e ∈ l, e.key ≠ key := by
  induction l with
  | nil => simp [replaceFirst]
  | cons e rest ih =>
    by_cases he : e.key = key
    · simp [replaceFirst, he]
    · simp only [replaceFirst, beq_iff_eq, if_neg he, Option.map_eq_none', ih,
        List.mem_cons]
      constructor
      · intro h x hx
        rcases hx with rfl | hx
        · exact he
        · exact h x hx
      · intro h x hx
        exact h x (Or.inr hx)

theorem replaceFirst_some {key : K} {value : V} {l : List (Entry K V)} {old : V}
    {l' : List (Entry K V)} (h : replaceFirst key value l = some (old, l')) :
    ∃ C e D, l = C ++ e :: D ∧ (∀ x ∈ C, x.key ≠ key) ∧ e.key = key ∧ old = e.value ∧
      l' = C ++ Entry.mk e.key value :: D := by
  induction l generalizing old l' with
  | nil => simp [replaceFirst] at h
  | cons a rest ih =>
    by_cases ha : a.key = key
    · rw [replaceFirst, if_pos (by simpa using ha)] at h
      obtain ⟨h1, h2⟩ : a.value = old ∧ Entry.mk a.key value :: rest = l' := by
        simpa using h
      exact ⟨[], a, rest, by simp, by simp, ha, h1.symm, h2.symm⟩
    · rw [replaceFirst, if_neg (by simpa using ha)] at h
      cases hr : replaceFirst key value rest with
      | none => rw [hr] at h; simp at h
      | some p =>
        obtain ⟨old₂, rest'⟩ := p
        rw [hr] at h
        obtain ⟨h1, h2⟩ : old₂ = old ∧ a :: rest' = l' := by simpa using h
        obtain ⟨C, e, D, hrest, hC, he, hold, hrest'⟩ := ih (h1 ▸ hr)
        refine ⟨a :: C, e, D, by simp [hrest], ?_, he, hold, by simp [← h2, hrest']⟩
        intro x hx
        rcases List.mem_cons.mp hx with rfl | hx
        · exact ha
        · exact hC x hx

theorem replaceFirst_fst (key : K) (value : V) (l : List (Entry K V)) :
    (replaceFirst key value l).map (fun p => p.1) =
      (l.find? (fun e => e.key == key)).map (fun e => e.value) := by
  induction l with
  | nil => rfl
  | cons e rest ih =>
    by_cases he : e.key = key
    · simp [replaceFirst, List.find?_cons, he]
    · simp only [replaceFirst, List.find?_cons, beq_iff_eq, if_neg he, beq_eq_false_iff_ne,
        ne_eq]
      rw [show (e.key == key) = false by simpa using he]
      rw [← ih]
      cases replaceFirst key value rest <;> simp

theorem key_not_mem_iff {l : List (Entry K V)} {k : K} :
    (∀ v, Entry.mk k v ∉ l) ↔ k ∉ l.map Entry.key := by
  constructor
  · intro h hk
    obtain ⟨e, he, hek⟩ := List.mem_map.mp hk
    obtain ⟨ek, ev⟩ := e
    have hek' : ek = k := hek
    subst hek'
    exact h ev he
  · intro h v hv
    exact h (List.mem_map.mpr ⟨Entry.mk k v, hv, rfl⟩)

theorem option_eq_of_some_iff {α : Type _} {o₁ o₂ : Option α}
    (h : ∀ a, o₁ = some a ↔ o₂ = some a) : o₁ = o₂ := by
  cases o₁ with
  | none =>
    cases o₂ with
    | none => rfl
    | some b => exact absurd ((h b).mpr rfl) (by simp)
  | some a => exact ((h a).mp rfl).symm

theorem get_eq_some_iff {m : HashMap K V} (hm : m.Invariant hash) {k : K} {v : V} :
    m.get hash k = some v ↔ Entry.mk k v ∈ m.entries := by
  obtain ⟨hsize, hidx, hnodup, hcap⟩ := hm
  constructor
  · intro h
    rw [HashMap.get] at h
    obtain ⟨e, hfind, hval⟩ := Option.map_eq_some'.mp h
    have he_mem : e ∈ m.items.getD (find_key_index hash k m.capacity) [] :=
      List.mem_of_find?_eq_some hfind
    have he_key : e.key = k := by simpa using List.find?_some hfind
    have he_eq : e = Entry.mk k v := by
      obtain ⟨ek, ev⟩ := e
      simp only [Entry.mk.injEq]
      exact ⟨he_key, hval⟩
    rw [← he_eq]
    exact mem_getD_flatten (find_key_index_lt hash k hcap) he_mem
  · intro h
    obtain ⟨b, hb, heb⟩ := List.mem_flatten.mp h
    obtain ⟨j, hj, rfl⟩ := List.mem_iff_getElem.mp hb
    have hidxj : find_key_index hash k m.items.length = j :=
      hidx j hj (Entry.mk k v) (by rw [List.getD_eq_getElem _ _ hj]; exact heb)
    rw [HashMap.get]
    have hcapeq : m.capacity = m.items.length := rfl
    rw [hcapeq, hidxj]
    cases hfind : (m.items.getD j []).find? (fun e => e.key == k) with
    | none =>
      exfalso
      have := List.find?_eq_none.mp hfind (Entry.mk k v)
        (by rw [List.getD_eq_getElem _ _ hj]; exact heb)
      simp at this
    | some e =>
      have he_mem : e ∈ m.entries :=
        mem_getD_flatten hj (List.mem_of_find?_eq_some hfind)
      have he_key : e.key = k := by simpa using List.find?_some hfind
      have : e = Entry.mk k v := entry_unique hnodup he_mem h he_key
      simp [this]

theorem get_eq_none_iff {m : HashMap K V} (hm : m.Invariant hash) {k : K} :
    m.get hash k = none ↔ ∀ v, Entry.mk k v ∉ m.entries := by
  constructor
  · intro h v hv
    rw [(get_eq_some_iff hash hm).mpr hv] at h
    exact absurd h (by simp)
  · intro h
    cases hget : m.get hash k with
    | none => rfl
    | some v => exact absurd ((get_eq_some_iff hash hm).mp hget) (h v)

theorem get_congr {m₁ m₂ : HashMap K V} (h₁ : m₁.Invariant hash) (h₂ : m₂.Invariant hash)
    {k : K} (h : ∀ v, Entry.mk k v ∈ m₁.entries ↔ Entry.mk k v ∈ m₂.entries) :
    m₁.get hash k = m₂.get hash k :=
  option_eq_of_some_iff fun v => by
    rw [get_eq_some_iff hash h₁, get_eq_some_iff hash h₂]
    exact h v

/-! ### Effect of put -/

theorem flatten_set_decomp {α : Type _} (items : List (List α)) {i : Nat}
    (hi : i < items.length) (b' : List α) :
    ∃ A B, items.flatten = A ++ items.getD i [] ++ B ∧
      (items.set i b').flatten = A ++ b' ++ B := by
  induction items generalizing i with
  | nil => simp at hi
  | cons hd tl ih =>
    cases i with
    | zero => exact ⟨[], tl.flatten, by simp, by simp⟩
    | succ j =>
      obtain ⟨A, B, h1, h2⟩ := ih (Nat.lt_of_succ_lt_succ hi)
      refine ⟨hd ++ A, B, ?_, ?_⟩
      · simp only [List.flatten_cons, List.getD_cons_succ, h1, List.append_assoc]
      · simp only [List.set_cons_succ, List.flatten_cons, h2, List.append_assoc]

theorem resizeIfNeeded_size (m : HashMap K V) : (m.resizeIfNeeded hash).size = m.size := by
  rw [HashMap.resizeIfNeeded]
  split
  · exact resize_size ..
  · rfl

theorem resizeIfNeeded_options (m : HashMap K V) :
    (m.resizeIfNeeded hash).options = m.options := by
  rw [HashMap.resizeIfNeeded]
  split
  · exact resize_options ..
  · rfl

theorem resizeIfNeeded_capacity (m : HashMap K V) :
    (m.resizeIfNeeded hash).capacity =
      if m.options.dynamic_resizing && m.exceeds_threshold then m.capacity * 2
      else m.capacity := by
  rw [HashMap.resizeIfNeeded]
  by_cases hc : m.options.dynamic_resizing && m.exceeds_threshold
  · rw [if_pos hc, if_pos hc, resize_capacity]
  · rw [if_neg hc, if_neg hc]

theorem resizeIfNeeded_invariant {m : HashMap K V} (hm : m.Invariant hash) :
    ((m.resizeIfNeeded hash).Invariant hash) := by
  rw [HashMap.resizeIfNeeded]
  split
  · exact resize_invariant hash hm (Nat.mul_pos hm.2.2.2 (by norm_num))
  · exact hm

theorem resizeIfNeeded_entries_perm {m : HashMap K V} (hcap : 0 < m.capacity) :
    ((m.resizeIfNeeded hash).entries).Perm m.entries := by
  rw [HashMap.resizeIfNeeded]
  split
  · exact resize_entries_perm hash m (Nat.mul_pos hcap (by norm_num))
  · exact List.Perm.refl _

theorem putMutated_eq_some {m : HashMap K V} {k : K} {v old : V} {nl : List (Entry K V)}
    (hr : replaceFirst k v (m.items.getD (find_key_index hash k m.capacity) []) =
      some (old, nl)) :
    m.putMutated hash k v =
      (some old, { m with items := m.items.set (find_key_index hash k m.capacity) nl }) := by
  simp only [HashMap.putMutated, hr]

theorem putMutated_eq_none {m : HashMap K V} {k : K} {v : V}
    (hr : replaceFirst k v (m.items.getD (find_key_index hash k m.capacity) []) = none) :
    m.putMutated hash k v =
      (none,
        { m with
          items := m.items.set (find_key_index hash k m.capacity)
            (m.items.getD (find_key_index hash k m.capacity) [] ++ [Entry.mk k v]),
          size := m.size + 1 }) := by
  simp only [HashMap.putMutated, hr]

theorem putMutated_fst (m : HashMap K V) (k : K) (v : V) :
    (m.putMutated hash k v).1 = m.get hash k := by
  have hrf := replaceFirst_fst k v (m.items.getD (find_key_index hash k m.capacity) [])
  simp only [HashMap.get]
  rw [← hrf]
  cases hr : replaceFirst k v (m.items.getD (find_key_index hash k m.capacity) []) with
  | none => rw [putMutated_eq_none hash hr]; rfl
  | some p =>
    obtain ⟨old, nl⟩ := p
    rw [putMutated_eq_some hash hr]
    rfl

theorem putMutated_capacity (m : HashMap K V) (k : K) (v : V) :
    (m.putMutated hash k v).2.capacity = m.capacity := by
  cases hr : replaceFirst k v (m.items.getD (find_key_index hash k m.capacity) []) with
  | none => rw [putMutated_eq_none hash hr]; simp [HashMap.capacity]
  | some p =>
    obtain ⟨old, nl⟩ := p
    rw [putMutated_eq_some hash hr]
    simp [HashMap.capacity]

theorem putMutated_options (m : HashMap K V) (k : K) (v : V) :
    (m.putMutated hash k v).2.options = m.options := by
  cases hr : replaceFirst k v (m.items.getD (find_key_index hash k m.capacity) []) with
  | none => rw [putMutated_eq_none hash hr]
  | some p =>
    obtain ⟨old, nl⟩ := p
    rw [putMutated_eq_some hash hr]

theorem putMutated_size (m : HashMap K V) (k : K) (v : V) :
    (m.putMutated hash k v).2.size =
      if (m.get hash k).isSome then m.size else m.size + 1 := by
  have hrf := replaceFirst_fst k v (m.items.getD (find_key_index hash k m.capacity) [])
  cases hr : replaceFirst k v (m.items.getD (find_key_index hash k m.capacity) []) with
  | none =>
    have hget : m.get hash k = none := by
      simp only [HashMap.get]
      rw [← hrf, hr]
      rfl
    rw [putMutated_eq_none hash hr, hget]
    rfl
  | some p =>
    obtain ⟨old, nl⟩ := p
    have hget : m.get hash k = some old := by
      simp only [HashMap.get]
      rw [← hrf, hr]
      rfl
    rw [putMutated_eq_some hash hr, hget]
    rfl

theorem putMutated_spec (m : HashMap K V) (hm : m.Invariant hash) (k : K) (v : V) :
    ((m.putMutated hash k v).2.Invariant hash) ∧
    Entry.mk k v ∈ (m.putMutated hash k v).2.entries ∧
    (∀ x : Entry K V, x.key ≠ k →
      ((x ∈ (m.putMutated hash k v).2.entries) ↔ x ∈ m.entries)) := by
  obtain ⟨hsize, hidx, hnodup, hcap⟩ := id hm
  have hi : find_key_index hash k m.capacity < m.items.length := find_key_index_lt hash k hcap
  cases hr : replaceFirst k v (m.items.getD (find_key_index hash k m.capacity) []) with
  | some p =>
    obtain ⟨old, nl⟩ := p
    obtain ⟨C, e, D, hbeq, hCkeys, hekey, hold, hnl⟩ := replaceFirst_some hr
    obtain ⟨A, B, hflat, hflat'⟩ := flatten_set_decomp m.items hi nl
    have hm2 : (m.putMutated hash k v).2 =
        { m with items := m.items.set (find_key_index hash k m.capacity) nl } := by
      rw [putMutated_eq_some hash hr]
    have hentries : (m.putMutated hash k v).2.entries = A ++ nl ++ B := by
      rw [hm2, HashMap.entries, hflat']
    have hkeys : nl.map Entry.key =
        (m.items.getD (find_key_index hash k m.capacity) []).map Entry.key := by
      rw [hnl, hbeq]
      simp
    have hkeysflat : ((m.putMutated hash k v).2.entries).map Entry.key =
        m.entries.map Entry.key := by
      rw [hentries, HashMap.entries, hflat]
      simp only [List.map_append, hkeys]
    refine ⟨⟨?_, ?_, ?_, ?_⟩, ?_, ?_⟩
    · -- size is preserved, and so is the number of entries
      have hlen : nl.length = (m.items.getD (find_key_index hash k m.capacity) []).length := by
        rw [hnl, hbeq]
        simp
      have : (m.putMutated hash k v).2.entries.length = m.entries.length := by
        rw [hentries, HashMap.entries, hflat]
        simp [hlen]
      rw [hm2] at this ⊢
      simpa [this] using hsize
    · -- placement invariant
      intro j hj x hx
      rw [hm2] at hj hx ⊢
      simp only [List.length_set] at hj
      simp only [List.length_set]
      by_cases hji : find_key_index hash k m.capacity = j
      · subst hji
        rw [getD_set_self _ hi] at hx
        rw [hnl] at hx
        rcases List.mem_append.mp hx with hx1 | hx2
        · exact hidx _ hj x (by rw [hbeq]; exact List.mem_append_left _ hx1)
        · rcases List.mem_cons.mp hx2 with rfl | hx3
          · show find_key_index hash e.key m.items.length = _
            rw [hekey]
            rfl
          · exact hidx _ hj x
              (by rw [hbeq]; exact List.mem_append_right _ (List.mem_cons_of_mem _ hx3))
      · rw [getD_set_ne _ hji] at hx
        exact hidx j hj x hx
    · -- key uniqueness
      show ((m.putMutated hash k v).2.items.flatten.map Entry.key).Nodup
      rw [show (m.putMutated hash k v).2.items.flatten = (m.putMutated hash k v).2.entries
        from rfl, hkeysflat]
      exact hnodup
    · -- positive capacity
      rw [hm2]
      show 0 < (m.items.set (find_key_index hash k m.capacity) nl).length
      simpa using hcap
    · -- the new association is present
      rw [hentries]
      refine List.mem_append_left _ (List.mem_append_right _ ?_)
      rw [hnl]
      have : Entry.mk k v = Entry.mk e.key v := by rw [hekey]
      rw [this]
      exact List.mem_append_right _ (List.mem_cons_self _ _)
    · -- entries for other keys are untouched
      intro x hxk
      have hxe : x ≠ e := by
        intro hxe
        exact hxk (by rw [hxe, hekey])
      have hxe' : x ≠ Entry.mk e.key v := by
        intro hxe
        exact hxk (by rw [hxe]; exact hekey)
      rw [hentries, HashMap.entries, hflat, hbeq, hnl]
      simp only [List.mem_append, List.mem_cons, hxe, hxe']
  | none =>
    have hnone := (replaceFirst_none_iff k v _).mp hr
    obtain ⟨A, B, hflat, hflat'⟩ := flatten_set_decomp m.items hi
      (m.items.getD (find_key_index hash k m.capacity) [] ++ [Entry.mk k v])
    have hm2 : (m.putMutated hash k v).2 =
        { m with
          items := m.items.set (find_key_index hash k m.capacity)
            (m.items.getD (find_key_index hash k m.capacity) [] ++ [Entry.mk k v]),
          size := m.size + 1 } := by
      rw [putMutated_eq_none hash hr]
    have hgetnone : m.get hash k = none := by
      simp only [HashMap.get, Option.map_eq_none']
      exact List.find?_eq_none.mpr fun x hx => by simpa using hnone x hx
    have hknotin : k ∉ m.entries.map Entry.key :=
      key_not_mem_iff.mp ((get_eq_none_iff hash hm).mp hgetnone)
    have hperm : ((m.putMutated hash k v).2.entries).Perm (Entry.mk k v :: m.entries) := by
      rw [hm2, HashMap.entries, hflat']
      rw [show A ++ (m.items.getD (find_key_index hash k m.capacity) [] ++ [Entry.mk k v]) ++ B
          = (A ++ m.items.getD (find_key_index hash k m.capacity) []) ++ Entry.mk k v :: B
        by simp]
      refine List.Perm.trans List.perm_middle ?_
      rw [HashMap.entries, hflat]
    refine ⟨⟨?_, ?_, ?_, ?_⟩, ?_, ?_⟩
    · -- size counter tracks the appended entry
      have hlen : (m.putMutated hash k v).2.entries.length = m.entries.length + 1 := by
        rw [hperm.length_eq]
        rfl
      rw [hlen, ← hsize, hm2]
    · -- placement invariant
      intro j hj x hx
      rw [hm2] at hj hx ⊢
      simp only [List.length_set] at hj
      simp only [List.length_set]
      by_cases hji : find_key_index hash k m.capacity = j
      · subst hji
        rw [getD_set_self _ hi] at hx
        rcases List.mem_append.mp hx with hx1 | hx2
        · exact hidx _ hj x hx1
        · rw [List.mem_singleton.mp hx2]
          rfl
      · rw [getD_set_ne _ hji] at hx
        exact hidx j hj x hx
    · -- key uniqueness with the fresh key
      show ((m.putMutated hash k v).2.items.flatten.map Entry.key).Nodup
      rw [show (m.putMutated hash k v).2.items.flatten = (m.putMutated hash k v).2.entries
        from rfl]
      rw [(hperm.map Entry.key).nodup_iff]
      exact List.nodup_cons.mpr ⟨hknotin, hnodup⟩
    · -- positive capacity
      rw [hm2]
      show 0 < (m.items.set (find_key_index hash k m.capacity) _).length
      simpa using hcap
    · -- the new association is present
      exact hperm.mem_iff.mpr (List.mem_cons_self _ _)
    · -- entries for other keys are untouched
      intro x hxk
      rw [hperm.mem_iff, List.mem_cons]
      constructor
      · intro hx
        rcases hx with rfl | hx
        · exact absurd rfl hxk
        · exact hx
      · exact Or.inr

/-! ### Effect of pop -/

theorem findIdx?_lt_length {α : Type _} {p : α → Bool} {l : List α} {i : Nat}
    (h : l.findIdx? p = some i) : i < l.length := by
  induction l generalizing i with
  | nil => simp at h
  | cons x xs ih =>
    rw [List.findIdx?_cons] at h
    by_cases hx : p x = true
    · rw [if_pos hx] at h
      obtain rfl : 0 = i := by simpa using h
      simp
    · rw [if_neg hx, List.findIdx?_succ] at h
      cases hj : xs.findIdx? p with
      | none => rw [hj] at h; simp at h
      | some j =>
        rw [hj] at h
        obtain rfl : j + 1 = i := by simpa using h
        simpa using ih hj

theorem pop_eq_none {m : HashMap K V} {k : K}
    (hr : (m.items.getD (find_key_index hash k m.capacity) []).findIdx?
      (fun e => e.key == k) = none) :
    m.pop hash k = (none, m) := by
  simp only [HashMap.pop, hr]

theorem pop_eq_some {m : HashMap K V} {k : K} {p : Nat}
    (hr : (m.items.getD (find_key_index hash k m.capacity) []).findIdx?
      (fun e => e.key == k) = some p) :
    m.pop hash k =
      (((m.items.getD (find_key_index hash k m.capacity) [])[p]?).map (fun e => e.value),
        { m with
          items := m.items.set (find_key_index hash k m.capacity)
            (swapRemove (m.items.getD (find_key_index hash k m.capacity) []) p),
          size := m.size - 1 }) := by
  simp only [HashMap.pop, hr]

theorem pop_fst (m : HashMap K V) (k : K) : (m.pop hash k).1 = m.get hash k := by
  simp only [HashMap.get]
  rw [find?_eq_findIdx?_bind]
  cases hr : (m.items.getD (find_key_index hash k m.capacity) []).findIdx?
      (fun e => e.key == k) with
  | none => rw [pop_eq_none hash hr]; rfl
  | some p => rw [pop_eq_some hash hr]; rfl

theorem pop_absent {m : HashMap K V} {k : K} (hget : m.get hash k = none) :
    m.pop hash k = (none, m) := by
  cases hr : (m.items.getD (find_key_index hash k m.capacity) []).findIdx?
      (fun e => e.key == k) with
  | none => exact pop_eq_none hash hr
  | some p =>
    exfalso
    have hplen := findIdx?_lt_length hr
    simp only [HashMap.get] at hget
    rw [find?_eq_findIdx?_bind, hr] at hget
    rw [show ((some p).bind fun i =>
        (m.items.getD (find_key_index hash k m.capacity) [])[i]?) =
        (m.items.getD (find_key_index hash k m.capacity) [])[p]? from rfl,
      List.getElem?_eq_getElem hplen] at hget
    exact absurd hget (by simp)

theorem pop_spec (m : HashMap K V) (hm : m.Invariant hash) (k : K) :
    ((m.pop hash k).2.Invariant hash) ∧
    ((m.pop hash k).2.get hash k = none) ∧
    (∀ x : Entry K V, x.key ≠ k → ((x ∈ (m.pop hash k).2.entries) ↔ x ∈ m.entries)) ∧
    (m.pop hash k).2.size = (if (m.get hash k).isSome then m.size - 1 else m.size) ∧
    (m.pop hash k).2.capacity = m.capacity ∧
    (m.pop hash k).2.options = m.options := by
  obtain ⟨hsize, hidx, hnodup, hcap⟩ := id hm
  have hi : find_key_index hash k m.capacity < m.items.length := find_key_index_lt hash k hcap
  cases hr : (m.items.getD (find_key_index hash k m.capacity) []).findIdx?
      (fun e => e.key == k) with
  | none =>
    have hget : m.get hash k = none := by
      simp only [HashMap.get]
      rw [find?_eq_findIdx?_bind, hr]
      rfl
    rw [pop_eq_none hash hr]
    exact ⟨hm, hget, fun x _ => Iff.rfl, by rw [hget]; rfl, rfl, rfl⟩
  | some p =>
    have hplen : p < (m.items.getD (find_key_index hash k m.capacity) []).length :=
      findIdx?_lt_length hr
    have hfind : (m.items.getD (find_key_index hash k m.capacity) []).find?
        (fun e => e.key == k) =
        some ((m.items.getD (find_key_index hash k m.capacity) []).get ⟨p, hplen⟩) := by
      rw [find?_eq_findIdx?_bind, hr]
      rw [show ((some p).bind fun i =>
          (m.items.getD (find_key_index hash k m.capacity) [])[i]?) =
          (m.items.getD (find_key_index hash k m.capacity) [])[p]? from rfl,
        List.getElem?_eq_getElem hplen]
      rfl
    have hkey : ((m.items.getD (find_key_index hash k m.capacity) []).get ⟨p, hplen⟩).key
        = k := by simpa using List.find?_some hfind
    have hget : m.get hash k =
        some (((m.items.getD (find_key_index hash k m.capacity) []).get ⟨p, hplen⟩).value) := by
      simp only [HashMap.get]
      rw [hfind]
      rfl
    have hbperm : (m.items.getD (find_key_index hash k m.capacity) []).Perm
        (((m.items.getD (find_key_index hash k m.capacity) []).get ⟨p, hplen⟩) ::
          swapRemove (m.items.getD (find_key_index hash k m.capacity) []) p) :=
      swapRemove_perm _ hplen
    obtain ⟨A, B, hflat, hflat'⟩ := flatten_set_decomp m.items hi
      (swapRemove (m.items.getD (find_key_index hash k m.capacity) []) p)
    have hm2 : (m.pop hash k).2 =
        { m with
          items := m.items.set (find_key_index hash k m.capacity)
            (swapRemove (m.items.getD (find_key_index hash k m.capacity) []) p),
          size := m.size - 1 } := by
      rw [pop_eq_some hash hr]
    have hperm : m.entries.Perm
        (((m.items.getD (find_key_index hash k m.capacity) []).get ⟨p, hplen⟩) ::
          (m.pop hash k).2.entries) := by
      rw [hm2]
      rw [show ({ m with
          items := m.items.set (find_key_index hash k m.capacity)
            (swapRemove (m.items.getD (find_key_index hash k m.capacity) []) p),
          size := m.size - 1 } : HashMap K V).entries =
        A ++ swapRemove (m.items.getD (find_key_index hash k m.capacity) []) p ++ B
        from hflat']
      refine List.Perm.trans ?_ (List.Perm.cons _ (List.Perm.refl _))
      rw [HashMap.entries, hflat]
      refine List.Perm.trans
        (List.Perm.append_right B (List.Perm.append_left A hbperm)) ?_
      rw [show A ++ (((m.items.getD (find_key_index hash k m.capacity) []).get ⟨p, hplen⟩) ::
          swapRemove (m.items.getD (find_key_index hash k m.capacity) []) p) ++ B =
          A ++ ((m.items.getD (find_key_index hash k m.capacity) []).get ⟨p, hplen⟩) ::
          (swapRemove (m.items.getD (find_key_index hash k m.capacity) []) p ++ B)
        by simp]
      refine List.Perm.trans List.perm_middle ?_
      rw [List.append_assoc]
    have hnodup' : (((m.items.getD (find_key_index hash k m.capacity) []).get
        ⟨p, hplen⟩).key :: ((m.pop hash k).2.entries).map Entry.key).Nodup := by
      rw [show (((m.items.getD (find_key_index hash k m.capacity) []).get ⟨p, hplen⟩).key ::
          ((m.pop hash k).2.entries).map Entry.key) =
          ((((m.items.getD (find_key_index hash k m.capacity) []).get ⟨p, hplen⟩) ::
            (m.pop hash k).2.entries).map Entry.key) from rfl]
      exact ((hperm.map Entry.key).nodup_iff).mp hnodup
    have hm'inv : ((m.pop hash k).2.Invariant hash) := by
      refine ⟨?_, ?_, ?_, ?_⟩
      · -- size counter tracks the removed entry
        have hlen : m.entries.length = (m.pop hash k).2.entries.length + 1 := by
          rw [hperm.length_eq]
          rfl
        have hsz : (m.pop hash k).2.size = m.size - 1 := by rw [hm2]
        rw [hsz, hsize, hlen]
        omega
      · -- placement invariant
        intro j hj x hx
        rw [hm2] at hj hx ⊢
        simp only [List.length_set] at hj
        simp only [List.length_set]
        by_cases hji : find_key_index hash k m.capacity = j
        · subst hji
          rw [getD_set_self _ hi] at hx
          have hxb : x ∈ m.items.getD (find_key_index hash k m.capacity) [] :=
            hbperm.mem_iff.mpr (List.mem_cons_of_mem _ hx)
          exact hidx _ hj x hxb
        · rw [getD_set_ne _ hji] at hx
          exact hidx j hj x hx
      · -- key uniqueness
        show (((m.pop hash k).2.entries).map Entry.key).Nodup
        exact (List.nodup_cons.mp hnodup').2
      · rw [hm2]
        show 0 < (m.items.set (find_key_index hash k m.capacity) _).length
        simpa using hcap
    refine ⟨hm'inv, ?_, ?_, ?_, ?_, ?_⟩
    · -- the key is gone
      rw [get_eq_none_iff hash hm'inv]
      intro w hw
      have hmem : k ∈ ((m.pop hash k).2.entries).map Entry.key :=
        List.mem_map.mpr ⟨Entry.mk k w, hw, rfl⟩
      have hnodup2 := hnodup'
      rw [hkey] at hnodup2
      exact (List.nodup_cons.mp hnodup2).1 hmem
    · -- entries for other keys are untouched
      intro x hxk
      have hxe : x ≠ (m.items.getD (find_key_index hash k m.capacity) []).get ⟨p, hplen⟩ := by
        intro hxe
        exact hxk (by rw [hxe, hkey])
      constructor
      · intro hx
        exact hperm.mem_iff.mpr (List.mem_cons_of_mem _ hx)
      · intro hx
        rcases List.mem_cons.mp (hperm.mem_iff.mp hx) with hx1 | hx2
        · exact absurd hx1 hxe
        · exact hx2
    · -- size formula
      rw [hget, hm2]
      rfl
    · rw [hm2]
      show (m.items.set (find_key_index hash k m.capacity) _).length = _
      simp [HashMap.capacity]
    · rw [hm2]

/-! ### Top-level put lemmas and invariant preservation -/

theorem put_fst (m : HashMap K V) (k : K) (v : V) :
    (m.put hash k v).1 = m.get hash k :=
  putMutated_fst hash m k v

theorem put_invariant {m : HashMap K V} (hm : m.Invariant hash) (k : K) (v : V) :
    ((m.put hash k v).2.Invariant hash) :=
  resizeIfNeeded_invariant hash (putMutated_spec hash m hm k v).1

theorem put_entries_mem {m : HashMap K V} (hm : m.Invariant hash) (k : K) (v : V) :
    Entry.mk k v ∈ (m.put hash k v).2.entries := by
  have hperm := resizeIfNeeded_entries_perm hash (m := (m.putMutated hash k v).2)
    (by rw [putMutated_capacity]; exact hm.2.2.2)
  exact hperm.mem_iff.mpr (putMutated_spec hash m hm k v).2.1

theorem put_entries_frame {m : HashMap K V} (hm : m.Invariant hash) (k : K) (v : V)
    {x : Entry K V} (hx : x.key ≠ k) :
    (x ∈ (m.put hash k v).2.entries ↔ x ∈ m.entries) := by
  have hperm := resizeIfNeeded_entries_perm hash (m := (m.putMutated hash k v).2)
    (by rw [putMutated_capacity]; exact hm.2.2.2)
  rw [show (m.put hash k v).2 = ((m.putMutated hash k v).2.resizeIfNeeded hash) from rfl,
    hperm.mem_iff]
  exact (putMutated_spec hash m hm k v).2.2 x hx

theorem get_put_self {m : HashMap K V} (hm : m.Invariant hash) (k : K) (v : V) :
    (m.put hash k v).2.get hash k = some v :=
  (get_eq_some_iff hash (put_invariant hash hm k v)).mpr (put_entries_mem hash hm k v)

theorem get_put_frame {m : HashMap K V} (hm : m.Invariant hash) (k : K) (v : V)
    {k' : K} (hk : k' ≠ k) :
    (m.put hash k v).2.get hash k' = m.get hash k' :=
  get_congr hash (put_invariant hash hm k v) hm fun w =>
    put_entries_frame hash hm k v (x := Entry.mk k' w) hk

theorem put_size (m : HashMap K V) (k : K) (v : V) :
    (m.put hash k v).2.size = if (m.get hash k).isSome then m.size else m.size + 1 := by
  rw [show (m.put hash k v).2 = ((m.putMutated hash k v).2.resizeIfNeeded hash) from rfl,
    resizeIfNeeded_size, putMutated_size]

theorem put_options (m : HashMap K V) (k : K) (v : V) :
    (m.put hash k v).2.options = m.options := by
  rw [show (m.put hash k v).2 = ((m.putMutated hash k v).2.resizeIfNeeded hash) from rfl,
    resizeIfNeeded_options, putMutated_options]

theorem put_capacity (m : HashMap K V) (k : K) (v : V) :
    (m.put hash k v).2.capacity =
      if m.options.dynamic_resizing ∧
          ((m.capacity : ℚ) * m.options.load_factor ≤ (((m.put hash k v).2.size : Nat) : ℚ))
        then m.capacity * 2
      else m.capacity := by
  rw [show ((m.put hash k v).2.size) = (m.putMutated hash k v).2.size from
    resizeIfNeeded_size ..]
  rw [show (m.put hash k v).2 = ((m.putMutated hash k v).2.resizeIfNeeded hash) from rfl,
    resizeIfNeeded_capacity]
  simp only [HashMap.exceeds_threshold, putMutated_capacity, putMutated_options,
    Bool.and_eq_true, decide_eq_true_eq]

theorem put_capacity_no_dyn {m : HashMap K V}
    (hdyn : m.options.dynamic_resizing = false) (k : K) (v : V) :
    (m.put hash k v).2.capacity = m.capacity := by
  rw [put_capacity, if_neg]
  rw [hdyn]
  simp

theorem reachable_invariant {m : HashMap K V} (h : Reachable hash m) : m.Invariant hash := by
  induction h with
  | init opts h => exact with_options_invariant hash opts h
  | put m k v hm ih => exact put_invariant hash ih k v
  | pop m k hm ih => exact (pop_spec hash m ih k).1
  | resize m n hn hm ih => exact resize_invariant hash ih hn

theorem putAll_capacity {m : HashMap K V} (hdyn : m.options.dynamic_resizing = false)
    (l : List (K × V)) : (putAll hash m l).capacity = m.capacity := by
  induction l generalizing m with
  | nil => rfl
  | cons kv t ih =>
    have h1 : ((m.put hash kv.1 kv.2).2).options.dynamic_resizing = false := by
      rw [put_options]
      exact hdyn
    have h2 : (m.put hash kv.1 kv.2).2.capacity = m.capacity :=
      put_capacity_no_dyn hash hdyn kv.1 kv.2
    simp only [putAll, List.foldl_cons]
    rw [show List.foldl (fun acc kv => (acc.put hash kv.1 kv.2).2) (m.put hash kv.1 kv.2).2 t
      = putAll hash (m.put hash kv.1 kv.2).2 t from rfl]
    rw [ih h1, h2]

theorem pop_capacity (m : HashMap K V) (k : K) : (m.pop hash k).2.capacity = m.capacity := by
  cases hr : (m.items.getD (find_key_index hash k m.capacity) []).findIdx?
      (fun e => e.key == k) with
  | none => rw [pop_eq_none hash hr]
  | some p =>
    rw [pop_eq_some hash hr]
    show (m.items.set (find_key_index hash k m.capacity) _).length = _
    simp [HashMap.capacity]

/-! ### Claims -/

/-- Claim C6: `Options::validate` succeeds, resolving every unset knob to its
default (initial_capacity 16, load_factor 0.75, dynamic_resizing true), if and
only if the load factor is unset or strictly positive; otherwise it fails with
exactly the non-empty error list containing "Load factor cannot be zero or
less", and no configuration object is produced. -/
theorem claim_C6 (o : Options) :
    (∀ vo : ValidatedOptions, o.validate = Except.ok vo ↔
      ((o.load_factor = none ∨ ∃ lf, o.load_factor = some lf ∧ 0 < lf) ∧
        vo = { initial_capacity := o.initial_capacity.getD 16,
               load_factor := o.load_factor.getD (3 / 4),
               dynamic_resizing := o.dynamic_resizing.getD true })) ∧
    (∀ errs : List String, o.validate = Except.error errs ↔
      ((∃ lf, o.load_factor = some lf ∧ lf ≤ 0) ∧
        errs = ["Load factor cannot be zero or less"])) := by
  cases hlf : o.load_factor with
  | none =>
    constructor
    · intro vo
      simp [Options.validate, hlf, DEFAULT_CAPACITY, DEFAULT_LOAD_FACTOR,
        DEFAULT_DYNAMIC_RESIZING, eq_comm]
    · intro errs
      simp [Options.validate, hlf]
  | some lf =>
    by_cases hpos : lf ≤ 0
    · constructor
      · intro vo
        simp [Options.validate, hlf, hpos, not_lt.mpr hpos]
      · intro errs
        simp [Options.validate, hlf, hpos, eq_comm]
    · constructor
      · intro vo
        simp [Options.validate, hlf, hpos, lt_of_not_le hpos, DEFAULT_CAPACITY,
          DEFAULT_LOAD_FACTOR, DEFAULT_DYNAMIC_RESIZING, eq_comm]
      · intro errs
        simp [Options.validate, hlf, hpos]

/-- Witness for C6: a concrete passing configuration and a concrete failing
one, checked against the characterization. -/
theorem claim_C6_witness :
    ((Options.mk (some 4) none (some false)).validate =
      Except.ok { initial_capacity := 4, load_factor := 3 / 4, dynamic_resizing := false }) ∧
    ((Options.mk none (some (-1)) none).validate =
      Except.error ["Load factor cannot be zero or less"]) := by
  constructor
  · exact ((claim_C6 (Options.mk (some 4) none (some false))).1 _).mpr
      (by constructor
          · exact Or.inl rfl
          · rfl)
  · exact ((claim_C6 (Options.mk none (some (-1)) none)).2 _).mpr
      (by constructor
          · exact ⟨-1, rfl, by norm_num⟩
          · rfl)

/-- Claim C8: with a positive capacity the bucket index `hash(key) mod
capacity` is strictly below the capacity, so the bucket-array indexing done by
get, put and pop (whose array has `capacity` entries) stays in bounds. -/
theorem claim_C8 (k : K) :
    (∀ capacity : Nat, 1 ≤ capacity → find_key_index hash k capacity < capacity) ∧
    (∀ m : HashMap K V, 1 ≤ m.capacity → find_key_index hash k m.capacity < m.items.length) := by
  constructor
  · intro c hc
    exact find_key_index_lt hash k hc
  · intro m hc
    exact find_key_index_lt hash k hc

/-- Witness for C8 at a colliding hash, key 0 and capacity 7. -/
theorem claim_C8_witness :
    1 ≤ 7 ∧ find_key_index (fun _ : Nat => 12345) 0 7 < 7 :=
  ⟨by norm_num, (claim_C8 (V := Nat) (fun _ : Nat => 12345) 0).1 7 (by norm_num)⟩

theorem new_invariant : (new : HashMap K V).Invariant hash :=
  with_options_invariant hash defaultValidated
    (by norm_num [defaultValidated, DEFAULT_CAPACITY])

/-- Claim C1: on a well-formed map (for an arbitrary hash function, so
colliding digests are covered): a key with no stored association reads as
absent; put returns the previously associated value (absent if none) and
afterwards get yields the new value; a second put over the same key returns
the first value, leaves get at the second value and the size unchanged, while
putting an absent key increments size by one. -/
theorem claim_C1 (m : HashMap K V) (hm : m.Invariant hash) (k : K) (v v₁ v₂ : V) :
    ((∀ w : V, Entry.mk k w ∉ m.entries) → m.get hash k = none) ∧
    ((m.put hash k v).1 = m.get hash k) ∧
    ((m.put hash k v).2.get hash k = some v) ∧
    (m.get hash k = none → (m.put hash k v).2.size = m.size + 1) ∧
    (((m.put hash k v₁).2.put hash k v₂).1 = some v₁ ∧
      ((m.put hash k v₁).2.put hash k v₂).2.get hash k = some v₂ ∧
      ((m.put hash k v₁).2.put hash k v₂).2.size = (m.put hash k v₁).2.size) := by
  have hm1 := put_invariant hash hm k v₁
  refine ⟨?_, put_fst hash m k v, get_put_self hash hm k v, ?_, ?_, ?_, ?_⟩
  · intro h
    exact (get_eq_none_iff hash hm).mpr h
  · intro h
    rw [put_size, h]
    rfl
  · rw [put_fst, get_put_self hash hm k v₁]
  · exact get_put_self hash hm1 k v₂
  · rw [put_size, get_put_self hash hm k v₁]
    rfl

/-- Witness for C1: fresh map over a constant (everywhere-colliding) hash. -/
theorem claim_C1_witness :
    ((new : HashMap Nat Nat).Invariant (fun _ => 0)) ∧
    (((∀ w : Nat, Entry.mk 1 w ∉ (new : HashMap Nat Nat).entries) →
        (new : HashMap Nat Nat).get (fun _ => 0) 1 = none) ∧
      (((new : HashMap Nat Nat).put (fun _ => 0) 1 10).1 =
        (new : HashMap Nat Nat).get (fun _ => 0) 1) ∧
      (((new : HashMap Nat Nat).put (fun _ => 0) 1 10).2.get (fun _ => 0) 1 = some 10) ∧
      ((new : HashMap Nat Nat).get (fun _ => 0) 1 = none →
        ((new : HashMap Nat Nat).put (fun _ => 0) 1 10).2.size =
          (new : HashMap Nat Nat).size + 1) ∧
      ((((new : HashMap Nat Nat).put (fun _ => 0) 1 11).2.put (fun _ => 0) 1 12).1 =
          some 11 ∧
        (((new : HashMap Nat Nat).put (fun _ => 0) 1 11).2.put
          (fun _ => 0) 1 12).2.get (fun _ => 0) 1 = some 12 ∧
        (((new : HashMap Nat Nat).put (fun _ => 0) 1 11).2.put (fun _ => 0) 1 12).2.size =
          ((new : HashMap Nat Nat).put (fun _ => 0) 1 11).2.size)) :=
  ⟨new_invariant _, claim_C1 (fun _ => 0) new (new_invariant _) 1 10 11 12⟩

/-- Claim C2: resizing a well-formed map to any positive capacity, larger or
smaller, preserves every association and the size counter. -/
theorem claim_C2 (m : HashMap K V) (hm : m.Invariant hash) (n : Nat) (hn : 1 ≤ n) :
    (∀ k : K, (m.resize hash n).get hash k = m.get hash k) ∧
    (m.resize hash n).size = m.size := by
  refine ⟨?_, resize_size ..⟩
  intro k
  exact get_congr hash (resize_invariant hash hm hn) hm
    (fun w => (resize_entries_perm hash m hn).mem_iff)

/-- Witness for C2: shrink a fresh 16-bucket map to 3 buckets. -/
theorem claim_C2_witness :
    ((new : HashMap Nat Nat).Invariant (fun x => x)) ∧ 1 ≤ 3 ∧
    ((∀ k : Nat, ((new : HashMap Nat Nat).resize (fun x => x) 3).get (fun x => x) k =
        (new : HashMap Nat Nat).get (fun x => x) k) ∧
      ((new : HashMap Nat Nat).resize (fun x => x) 3).size = (new : HashMap Nat Nat).size) :=
  ⟨new_invariant _, by norm_num,
    claim_C2 (fun x => x) new (new_invariant _) 3 (by norm_num)⟩

/-- Claim C3: every map reachable by put/pop/resize keeps the size counter
equal to the number of stored entries and every key stored at most once
(hence in at most one bucket); popping an absent key does not change the
size. -/
theorem claim_C3 (m : HashMap K V) (h : Reachable hash m) :
    m.size = m.entries.length ∧ keysNodup m.items ∧
    (∀ k : K, m.get hash k = none → (m.pop hash k).2.size = m.size) := by
  have hm := reachable_invariant hash h
  exact ⟨hm.1, hm.2.2.1, fun k hk => by rw [pop_absent hash hk]⟩

/-- Witness for C3: the map reached by one put from a default construction. -/
theorem claim_C3_witness :
    Reachable (fun _ : Nat => 0) ((new : HashMap Nat Nat).put (fun _ => 0) 1 2).2 ∧
    (((new : HashMap Nat Nat).put (fun _ => 0) 1 2).2.size =
        ((new : HashMap Nat Nat).put (fun _ => 0) 1 2).2.entries.length ∧
      keysNodup ((new : HashMap Nat Nat).put (fun _ => 0) 1 2).2.items ∧
      (∀ k : Nat, ((new : HashMap Nat Nat).put (fun _ => 0) 1 2).2.get (fun _ => 0) k = none →
        (((new : HashMap Nat Nat).put (fun _ => 0) 1 2).2.pop (fun _ => 0) k).2.size =
          ((new : HashMap Nat Nat).put (fun _ => 0) 1 2).2.size)) :=
  ⟨Reachable.put _ _ _ (Reachable.init defaultValidated
      (by norm_num [defaultValidated, DEFAULT_CAPACITY])),
    claim_C3 (fun _ => 0) _ (Reachable.put _ _ _ (Reachable.init defaultValidated
      (by norm_num [defaultValidated, DEFAULT_CAPACITY])))⟩

/-- Claim C4: after every put (insert or overwrite path alike) the capacity is
`2 * capacity` exactly when dynamic resizing is on and the post-mutation size
meets `capacity * load_factor`, and stays `capacity` otherwise; with dynamic
resizing off, no sequence of puts ever changes the capacity. -/
theorem claim_C4 :
    (∀ (m : HashMap K V) (k : K) (v : V),
      (m.put hash k v).2.capacity =
        (if m.options.dynamic_resizing ∧
            ((m.capacity : ℚ) * m.options.load_factor ≤ (((m.put hash k v).2.size : Nat) : ℚ))
          then 2 * m.capacity else m.capacity)) ∧
    (∀ (m : HashMap K V) (l : List (K × V)),
      m.options.dynamic_resizing = false → (putAll hash m l).capacity = m.capacity) := by
  constructor
  · intro m k v
    rw [put_capacity, Nat.mul_comm m.capacity 2]
  · intro m l h
    exact putAll_capacity hash h l

/-- Witness for C4: the doubling equation at a concrete put, and capacity
stability for two puts with dynamic resizing off. -/
theorem claim_C4_witness :
    (((new : HashMap Nat Nat).put (fun _ => 0) 1 2).2.capacity =
      (if (new : HashMap Nat Nat).options.dynamic_resizing ∧
          (((new : HashMap Nat Nat).capacity : ℚ) *
            (new : HashMap Nat Nat).options.load_factor ≤
            ((((new : HashMap Nat Nat).put (fun _ => 0) 1 2).2.size : Nat) : ℚ))
        then 2 * (new : HashMap Nat Nat).capacity else (new : HashMap Nat Nat).capacity)) ∧
    ((with_options (K := Nat) (V := Nat)
        ⟨3, 1 / 2, false⟩).options.dynamic_resizing = false ∧
      (putAll (fun _ => 0) (with_options (K := Nat) (V := Nat) ⟨3, 1 / 2, false⟩)
        [(1, 1), (2, 2)]).capacity =
        (with_options (K := Nat) (V := Nat) ⟨3, 1 / 2, false⟩).capacity) :=
  ⟨(claim_C4 (K := Nat) (V := Nat) (fun _ => 0)).1 new 1 2,
    rfl,
    (claim_C4 (K := Nat) (V := Nat) (fun _ => 0)).2
      (with_options ⟨3, 1 / 2, false⟩) [(1, 1), (2, 2)] rfl⟩

/-- Claim C5: on a well-formed map, pop after put returns the stored value,
decrements the (positive) size by one and leaves the key absent; a second pop
returns absent; popping an absent key returns absent and leaves the whole map
state unchanged. -/
theorem claim_C5 (m : HashMap K V) (hm : m.Invariant hash) (k : K) (v : V) :
    (((m.put hash k v).2.pop hash k).1 = some v) ∧
    (1 ≤ (m.put hash k v).2.size ∧
      ((m.put hash k v).2.pop hash k).2.size = (m.put hash k v).2.size - 1) ∧
    (((m.put hash k v).2.pop hash k).2.get hash k = none) ∧
    ((((m.put hash k v).2.pop hash k).2.pop hash k).1 = none) ∧
    (m.get hash k = none → m.pop hash k = (none, m)) := by
  have hm' := put_invariant hash hm k v
  have hget' : (m.put hash k v).2.get hash k = some v := get_put_self hash hm k v
  have hps := pop_spec hash _ hm' k
  refine ⟨?_, ⟨?_, ?_⟩, hps.2.1, ?_, ?_⟩
  · rw [pop_fst, hget']
  · have hmem := put_entries_mem hash hm k v
    rw [hm'.1]
    exact List.length_pos_of_mem hmem
  · rw [hps.2.2.2.1, hget']
    rfl
  · rw [pop_fst, hps.2.1]
  · intro hget
    exact pop_absent hash hget

/-- Witness for C5: fresh map over a constant hash, key 1, value 5. -/
theorem claim_C5_witness :
    ((new : HashMap Nat Nat).Invariant (fun _ => 0)) ∧
    ((((new : HashMap Nat Nat).put (fun _ => 0) 1 5).2.pop (fun _ => 0) 1).1 = some 5 ∧
      (1 ≤ ((new : HashMap Nat Nat).put (fun _ => 0) 1 5).2.size ∧
        (((new : HashMap Nat Nat).put (fun _ => 0) 1 5).2.pop (fun _ => 0) 1).2.size =
          ((new : HashMap Nat Nat).put (fun _ => 0) 1 5).2.size - 1) ∧
      ((((new : HashMap Nat Nat).put (fun _ => 0) 1 5).2.pop (fun _ => 0) 1).2.get
        (fun _ => 0) 1 = none) ∧
      (((((new : HashMap Nat Nat).put (fun _ => 0) 1 5).2.pop (fun _ => 0) 1).2.pop
        (fun _ => 0) 1).1 = none) ∧
      ((new : HashMap Nat Nat).get (fun _ => 0) 1 = none →
        (new : HashMap Nat Nat).pop (fun _ => 0) 1 = (none, new))) :=
  ⟨new_invariant _, claim_C5 (fun _ => 0) new (new_invariant _) 1 5⟩

/-- Counterexample for C7 as stated: initial_capacity 0 passes validation and
construction then yields a bucket array of length 0, violating capacity ≥ 1. -/
theorem claim_C7_counterexample :
    (Options.mk (some 0) none none).validate =
      Except.ok { initial_capacity := 0, load_factor := 3 / 4, dynamic_resizing := true } ∧
    (with_options (K := Nat) (V := Nat)
      { initial_capacity := 0, load_factor := 3 / 4, dynamic_resizing := true }).capacity
      = 0 :=
  ⟨rfl, rfl⟩

/-- Claim C7 (amended): construction yields a bucket array of length exactly
`initial_capacity`, which is ≥ 1 whenever `initial_capacity` ≥ 1 — validation
does not enforce that positivity, but the default construction uses 16 — and
put, pop, and resize with a positive argument preserve a positive capacity. -/
theorem claim_C7 (opts : ValidatedOptions) :
    ((with_options (K := K) (V := V) opts).capacity = opts.initial_capacity) ∧
    (1 ≤ opts.initial_capacity → 1 ≤ (with_options (K := K) (V := V) opts).capacity) ∧
    (1 ≤ (new : HashMap K V).capacity) ∧
    (∀ (m : HashMap K V) (k : K) (v : V), 1 ≤ m.capacity → 1 ≤ (m.put hash k v).2.capacity) ∧
    (∀ (m : HashMap K V) (k : K), 1 ≤ m.capacity → 1 ≤ (m.pop hash k).2.capacity) ∧
    (∀ (m : HashMap K V) (n : Nat), 1 ≤ n → 1 ≤ (m.resize hash n).capacity) := by
  refine ⟨capacity_with_options opts, ?_, ?_, ?_, ?_, ?_⟩
  · intro h
    rw [capacity_with_options]
    exact h
  · rw [show (new : HashMap K V) = with_options defaultValidated from rfl,
      capacity_with_options]
    norm_num [defaultValidated, DEFAULT_CAPACITY]
  · intro m k v h
    rw [put_capacity]
    split
    · omega
    · exact h
  · intro m k h
    rw [pop_capacity]
    exact h
  · intro m n h
    rw [resize_capacity]
    exact h

/-- Witness for C7 (amended) at capacity 2 and a resize to 5. -/
theorem claim_C7_witness :
    ((with_options (K := Nat) (V := Nat) ⟨2, 3 / 4, true⟩).capacity = 2) ∧
    (1 ≤ 2 ∧ 1 ≤ (with_options (K := Nat) (V := Nat) ⟨2, 3 / 4, true⟩).capacity) ∧
    (1 ≤ 5 ∧
      1 ≤ ((with_options (K := Nat) (V := Nat) ⟨2, 3 / 4, true⟩).resize
        (fun _ => 0) 5).capacity) :=
  ⟨(claim_C7 (fun _ => 0) ⟨2, 3 / 4, true⟩).1,
    ⟨by norm_num, (claim_C7 (fun _ => 0) ⟨2, 3 / 4, true⟩).2.1 (by norm_num)⟩,
    ⟨by norm_num, (claim_C7 (fun _ => 0) ⟨2, 3 / 4, true⟩).2.2.2.2.2
      (with_options ⟨2, 3 / 4, true⟩) 5 (by norm_num)⟩⟩

/-- Claim C9: on a well-formed map the consuming iterator yields each stored
entry exactly once — no duplicates, membership coincides with get — and its
length equals the size counter. -/
theorem claim_C9 (m : HashMap K V) (hm : m.Invariant hash) :
    (m.intoIter).length = m.size ∧
    (m.intoIter).Nodup ∧
    (∀ (k : K) (v : V), Entry.mk k v ∈ m.intoIter ↔ m.get hash k = some v) := by
  refine ⟨hm.1.symm, ?_, ?_⟩
  · exact List.Nodup.of_map Entry.key hm.2.2.1
  · intro k v
    exact (get_eq_some_iff hash hm).symm

/-- Witness for C9 on a fresh map with identity hash. -/
theorem claim_C9_witness :
    ((new : HashMap Nat Nat).Invariant (fun x => x)) ∧
    (((new : HashMap Nat Nat).intoIter).length = (new : HashMap Nat Nat).size ∧
      ((new : HashMap Nat Nat).intoIter).Nodup ∧
      (∀ (k v : Nat), Entry.mk k v ∈ (new : HashMap Nat Nat).intoIter ↔
        (new : HashMap Nat Nat).get (fun x => x) k = some v)) :=
  ⟨new_invariant _, claim_C9 (fun x => x) new (new_invariant _)⟩

/-- Claim C10 (frame property): put and pop on one key leave the association
of every other key unchanged, through in-bucket reordering and automatic
rehashes alike. -/
theorem claim_C10 (m : HashMap K V) (hm : m.Invariant hash) (k k' : K) (hne : k' ≠ k)
    (v : V) :
    (m.put hash k v).2.get hash k' = m.get hash k' ∧
    (m.pop hash k).2.get hash k' = m.get hash k' := by
  refine ⟨get_put_frame hash hm k v hne, ?_⟩
  have hps := pop_spec hash m hm k
  exact get_congr hash hps.1 hm (fun w => hps.2.2.1 (Entry.mk k' w) hne)

/-- Witness for C10: constant hash (keys 1 and 2 collide into one bucket). -/
theorem claim_C10_witness :
    ((new : HashMap Nat Nat).Invariant (fun _ => 0)) ∧ (2 : Nat) ≠ 1 ∧
    (((new : HashMap Nat Nat).put (fun _ => 0) 1 9).2.get (fun _ => 0) 2 =
        (new : HashMap Nat Nat).get (fun _ => 0) 2 ∧
      ((new : HashMap Nat Nat).pop (fun _ => 0) 1).2.get (fun _ => 0) 2 =
        (new : HashMap Nat Nat).get (fun _ => 0) 2) :=
  ⟨new_invariant _, by norm_num,
    claim_C10 (fun _ => 0) new (new_invariant _) 1 2 (by norm_num) 9⟩

end RustHashMap
